import Mathlib

/-!
A shallow embedding of the differential-evolution optimizer in
`src/de/DifferentialEvolution.h` (namespace `de`, class `DifferentialEvolution`),
together with proofs about the claims of the specification.

Modelling conventions:
* C++ `double` values are modelled as `ℚ`; the only non-finite double the class
  manipulates is the `-infinity` initial value of `m_minCost`, so that one field
  is modelled as `WithBot ℚ` with `⊥` standing for `-infinity` (note that for
  IEEE doubles `x < -infinity` is false for every `x`, exactly as `¬ x < ⊥`).
* the pseudo-random generator is modelled by oracle streams of already realised
  draws; hypotheses of theorems restrict a draw to the support of the
  distribution the C++ code samples it from (e.g. an index draw obtained by
  truncating a `uniform_real_distribution(0, populationSize)` sample is a
  natural number `< populationSize`).
* the two rejection-sampling loops (donor selection, feasibility gate) are
  given explicit fuel and return `none` when the fuel runs out; the C++ loops
  simply keep drawing.
* out-of-range vector accesses (undefined behaviour in C++) are modelled with
  `List.getD` defaults; every theorem only relies on in-range accesses.
-/

namespace DE

/-- Model of `IOptimizable::Constraints`: a per-dimension box constraint. -/
structure Constraints where
  lower : ℚ
  upper : ℚ
  isConstrained : Bool
deriving DecidableEq

/-- The C++ default constructor `Constraints(0.0, 1.0, false)`. -/
instance : Inhabited Constraints := ⟨⟨0, 1, false⟩⟩

/-- Model of `Constraints::Check`: an enforced bound accepts `candidate` iff
`candidate <= upper && candidate >= lower`; an unenforced bound accepts all. -/
def Constraints.check (c : Constraints) (candidate : ℚ) : Bool :=
  if c.isConstrained then decide (candidate ≤ c.upper ∧ c.lower ≤ candidate) else true

/-- Differential weight `m_F`, hard-coded to `0.8` in the constructor. -/
def m_F : ℚ := 0.8

/-- Crossover probability `m_CR`, hard-coded to `0.9` in the constructor. -/
def m_CR : ℚ := 0.9

/-- Construction-time configuration: population size, problem dimension, the
constraints fetched from the cost functor, and the constraint-checking flag. -/
structure Config where
  popSize : ℕ
  nparams : ℕ
  constraints : List Constraints
  shouldCheckConstraints : Bool

/-- The mutable member state of `DifferentialEvolution`: `m_population`,
`m_minCostPerAgent`, `m_bestAgentIndex` and `m_minCost`. -/
structure DEState where
  population : List (List ℚ)
  minCostPerAgent : List ℚ
  bestAgentIndex : ℕ
  minCost : WithBot ℚ
deriving DecidableEq

/-- The member state established by the constructor body: the population and the
cost cache are `resize`d (hence zero-filled), `m_bestAgentIndex = 0` and
`m_minCost = -infinity`. -/
def constructState (cfg : Config) : DEState :=
  ⟨List.replicate cfg.popSize (List.replicate cfg.nparams 0),
   List.replicate cfg.popSize 0, 0, ⊥⟩

/-- The constructor together with its `assert(m_populationSize >= 4)`;
`none` models the assertion firing. -/
def mkOptimizer (cfg : Config) : Option DEState :=
  if 4 ≤ cfg.popSize then some (constructState cfg) else none

/-- The scan at the end of `InitPopulation`: for each index `i` in order, update
the running `(m_minCost, m_bestAgentIndex)` pair whenever
`m_minCostPerAgent[i] < m_minCost`. -/
def bestScanAux : List ℚ → ℕ → WithBot ℚ → ℕ → WithBot ℚ × ℕ
  | [], _, mc, bi => (mc, bi)
  | c :: rest, i, mc, bi =>
    if (c : WithBot ℚ) < mc then bestScanAux rest (i + 1) (c : WithBot ℚ) i
    else bestScanAux rest (i + 1) mc bi

/-- Model of `InitPopulation`: fill every agent dimension-wise with the realised uniform
draws `draws j i` (from `[lower, upper]` when dimension `i` is constrained, from
the default range otherwise), evaluate every agent's cost into the cache, and
run the best-tracking scan starting from the current `m_minCost` and
`m_bestAgentIndex`. -/
def initPopulation (cfg : Config) (cost : List ℚ → ℚ) (draws : ℕ → ℕ → ℚ)
    (s : DEState) : DEState :=
  let pop := (List.range cfg.popSize).map (fun j => (List.range cfg.nparams).map (draws j))
  let costs := pop.map cost
  let mcbi := bestScanAux costs 0 s.minCost s.bestAgentIndex
  ⟨pop, costs, mcbi.2, mcbi.1⟩

/-- The guard of the donor rejection loop in `SelectionAndCorssing`: the drawn
triple is accepted iff `a, b, c, x` are pairwise distinct. -/
def validDonors (x a b c : ℕ) : Bool :=
  !(a == x || b == x || c == x || a == b || a == c || b == c)

/-- The donor rejection loop: keep consuming triples from the draw stream `seq`
(starting at position `k`) until one passes `validDonors`; `none` when the fuel
runs out. -/
def findDonors (x : ℕ) (seq : ℕ → ℕ × ℕ × ℕ) : ℕ → ℕ → Option (ℕ × ℕ × ℕ)
  | 0, _ => none
  | fuel + 1, k =>
    if validDonors x (seq k).1 (seq k).2.1 (seq k).2.2 then some (seq k)
    else findDonors x seq fuel (k + 1)

/-- The intermediate solution `z`:
`z[i] = population[a][i] + F * (population[b][i] - population[c][i])`. -/
def mutantVector (pop : List (List ℚ)) (nparams a b c : ℕ) : List ℚ :=
  (List.range nparams).map (fun i =>
    (pop.getD a []).getD i 0 + m_F * ((pop.getD b []).getD i 0 - (pop.getD c []).getD i 0))

/-- The crossover: `newX[i] = z[i]` when `r[i] < CR || i == R`, else the current
value `target[i]` of the agent at slot `x`. -/
def crossover (nparams : ℕ) (R : ℕ) (r : ℕ → ℚ) (z target : List ℚ) : List ℚ :=
  (List.range nparams).map (fun i =>
    if r i < m_CR ∨ i = R then z.getD i 0 else target.getD i 0)

/-- The trial vector `newX` built for slot `x` from donors `a, b, c`, the forced
dimension `R` and the per-dimension uniform draws `r`. -/
def trialVector (cfg : Config) (pop : List (List ℚ)) (x a b c R : ℕ)
    (r : ℕ → ℚ) : List ℚ :=
  crossover cfg.nparams R r (mutantVector pop cfg.nparams a b c) (pop.getD x [])

/-- Model of `CheckConstraints`: every dimension of `agent` must pass
`m_constraints[i].Check(agent[i])`. -/
def checkConstraintsAll (cs : List Constraints) (agent : List ℚ) : Bool :=
  (List.range agent.length).all (fun i => (cs.getD i default).check (agent.getD i 0))

/-- The realised random draws consumed while processing one population slot:
for each feasibility-gate attempt `k`, a stream of donor triples (both index
truncations applied), the forced dimension `R`, and the per-dimension uniform
draws `r`. -/
structure SlotDraws where
  donorSeq : ℕ → ℕ → ℕ × ℕ × ℕ
  bigR : ℕ → ℕ
  rvals : ℕ → ℕ → ℚ

/-- The body of the per-slot loop of `SelectionAndCorssing`, with the
feasibility gate (`x--; continue`) rendered as recursion on `fuel` over attempt
numbers `k`: draw donors, build the trial, discard it when constraint checking
is on and it violates a bound, otherwise evaluate it and replace slot `x`
exactly when the new cost is strictly smaller than the cached one. -/
def processSlotAux (cfg : Config) (cost : List ℚ → ℚ) (d : SlotDraws) (dfuel : ℕ)
    (x : ℕ) (s : DEState) : ℕ → ℕ → Option DEState
  | 0, _ => none
  | fuel + 1, k =>
    match findDonors x (d.donorSeq k) dfuel 0 with
    | none => none
    | some (a, b, c) =>
      let newX := trialVector cfg s.population x a b c (d.bigR k) (d.rvals k)
      if cfg.shouldCheckConstraints && !(checkConstraintsAll cfg.constraints newX) then
        processSlotAux cfg cost d dfuel x s fuel (k + 1)
      else
        let newCost := cost newX
        if newCost < s.minCostPerAgent.getD x 0 then
          some ⟨s.population.set x newX, s.minCostPerAgent.set x newCost,
                s.bestAgentIndex, s.minCost⟩
        else some s

/-- Processing of one slot, starting at attempt `0` with `afuel` attempts. -/
def processSlot (cfg : Config) (cost : List ℚ → ℚ) (d : SlotDraws)
    (dfuel afuel : ℕ) (x : ℕ) (s : DEState) : Option DEState :=
  processSlotAux cfg cost d dfuel x s afuel 0

/-- The slot loop of `SelectionAndCorssing` carrying the running local
`(minCost, bestAgentIndex)` pair, updated from `m_minCostPerAgent[x]` after each
slot is processed. -/
def slotsLoop (cfg : Config) (cost : List ℚ → ℚ) (draws : ℕ → SlotDraws)
    (dfuel afuel : ℕ) : List ℕ → DEState → ℚ → ℕ → Option (DEState × ℚ × ℕ)
  | [], s, mc, bi => some (s, mc, bi)
  | x :: xs, s, mc, bi =>
    match processSlot cfg cost (draws x) dfuel afuel x s with
    | none => none
    | some s' =>
      if s'.minCostPerAgent.getD x 0 < mc then
        slotsLoop cfg cost draws dfuel afuel xs s' (s'.minCostPerAgent.getD x 0) x
      else slotsLoop cfg cost draws dfuel afuel xs s' mc bi

/-- Model of `SelectionAndCorssing` (sic): process slots `0 .. popSize-1` in order, with
the local best tracker seeded by `m_minCostPerAgent[0]` and index `0`, then
store the tracker into `m_minCost` and `m_bestAgentIndex`. -/
def selectionAndCorssing (cfg : Config) (cost : List ℚ → ℚ) (draws : ℕ → SlotDraws)
    (dfuel afuel : ℕ) (s : DEState) : Option DEState :=
  match slotsLoop cfg cost draws dfuel afuel (List.range cfg.popSize) s
      (s.minCostPerAgent.getD 0 0) 0 with
  | none => none
  | some (s', mc, bi) => some ⟨s'.population, s'.minCostPerAgent, bi, (mc : WithBot ℚ)⟩

/-- Model of `GetBestAgent`: `m_population[m_bestAgentIndex]`. -/
def getBestAgent (s : DEState) : List ℚ :=
  s.population.getD s.bestAgentIndex []

/-- Model of `GetBestCost`: `m_minCostPerAgent[m_bestAgentIndex]`. -/
def getBestCost (s : DEState) : ℚ :=
  s.minCostPerAgent.getD s.bestAgentIndex 0

/-- Model of `GetPopulationWithCosts`: the `populationSize` pairs
`(m_population[i], m_minCostPerAgent[i])` in order. -/
def getPopulationWithCosts (cfg : Config) (s : DEState) : List (List ℚ × ℚ) :=
  (List.range cfg.popSize).map (fun i => (s.population.getD i [], s.minCostPerAgent.getD i 0))

/-- The reason `Optimize` returns. -/
inductive StopReason where
  | earlyTermination
  | budgetExhausted
deriving DecidableEq

/-- Observable events of one `Optimize` iteration: a generation step, a callback
invocation, a termination-predicate evaluation (with its result). -/
inductive Event where
  | genStep
  | callbackRun
  | termCheckEv (r : Bool)
deriving DecidableEq

/-- The events the body of the `Optimize` loop produces after a generation step
reached state `s`: the step itself, then the callback when one is configured,
then the termination check when one is configured. -/
def genEvents (hasCb : Bool) (term : Option (DEState → Bool)) (s : DEState) : List Event :=
  [Event.genStep] ++ (if hasCb then [Event.callbackRun] else []) ++
    (match term with
     | some p => [Event.termCheckEv (p s)]
     | none => [])

/-- The optimization loop of `Optimize`: up to `n` more generation steps, the
draws of generation `k` of this call being `draws k`. Returns the final state,
the number of generation steps performed, the stop reason and the event trace;
`none` when a generation step exhausts its fuel. -/
def optimizeLoop (cfg : Config) (cost : List ℚ → ℚ) (dfuel afuel : ℕ)
    (hasCb : Bool) (term : Option (DEState → Bool)) :
    ℕ → (ℕ → ℕ → SlotDraws) → DEState → Option (DEState × ℕ × StopReason × List Event)
  | 0, _, s => some (s, 0, StopReason.budgetExhausted, [])
  | n + 1, draws, s =>
    match selectionAndCorssing cfg cost (draws 0) dfuel afuel s with
    | none => none
    | some s' =>
      match term with
      | some p =>
        if p s' then some (s', 1, StopReason.earlyTermination, genEvents hasCb term s')
        else
          (optimizeLoop cfg cost dfuel afuel hasCb term n (fun k => draws (k + 1)) s').map
            (fun out => (out.1, out.2.1 + 1, out.2.2.1, genEvents hasCb term s' ++ out.2.2.2))
      | none =>
        (optimizeLoop cfg cost dfuel afuel hasCb term n (fun k => draws (k + 1)) s').map
          (fun out => (out.1, out.2.1 + 1, out.2.2.1, genEvents hasCb term s' ++ out.2.2.2))

/-- All realised random draws of one `Optimize` run: the initialization draws
and, for each generation `k` and slot `x`, the slot draws. -/
structure RunDraws where
  initDraws : ℕ → ℕ → ℚ
  gen : ℕ → ℕ → SlotDraws

/-- Model of `Optimize(iterations, verbose)`: one `InitPopulation` from the constructor
state, then the optimization loop. -/
def optimize (cfg : Config) (cost : List ℚ → ℚ) (draws : RunDraws)
    (dfuel afuel : ℕ) (hasCb : Bool) (term : Option (DEState → Bool))
    (iterations : ℕ) : Option (DEState × ℕ × StopReason × List Event) :=
  optimizeLoop cfg cost dfuel afuel hasCb term iterations draws.gen
    (initPopulation cfg cost draws.initDraws (constructState cfg))

/-- The state after `j` generation steps (the `j`-step trajectory), stepping
with the draws of generation `0` first. -/
def genIter (cfg : Config) (cost : List ℚ → ℚ) (dfuel afuel : ℕ) :
    ℕ → (ℕ → ℕ → SlotDraws) → DEState → Option DEState
  | 0, _, s => some s
  | j + 1, draws, s =>
    match selectionAndCorssing cfg cost (draws 0) dfuel afuel s with
    | none => none
    | some s' => genIter cfg cost dfuel afuel j (fun k => draws (k + 1)) s'

/-- The list of the states reached after generation steps `1 .. j`. -/
def genStates (cfg : Config) (cost : List ℚ → ℚ) (dfuel afuel : ℕ) :
    ℕ → (ℕ → ℕ → SlotDraws) → DEState → Option (List DEState)
  | 0, _, _ => some []
  | j + 1, draws, s =>
    match selectionAndCorssing cfg cost (draws 0) dfuel afuel s with
    | none => none
    | some s' =>
      (genStates cfg cost dfuel afuel j (fun k => draws (k + 1)) s').map
        (fun l => s' :: l)

/-- The per-generation best-cost trajectory over `n` generations. -/
def bestCostTrajectory (cfg : Config) (cost : List ℚ → ℚ) (dfuel afuel : ℕ)
    (draws : ℕ → ℕ → SlotDraws) (s : DEState) (n : ℕ) : List (Option ℚ) :=
  (List.range n).map (fun k => (genIter cfg cost dfuel afuel (k + 1) draws s).map getBestCost)

/-- The cost cache is synchronized with the population. -/
def cacheSynced (cfg : Config) (cost : List ℚ → ℚ) (s : DEState) : Prop :=
  ∀ i, i < cfg.popSize → s.minCostPerAgent.getD i 0 = cost (s.population.getD i [])

/-- Every stored agent passes `CheckConstraints`. -/
def allFeasible (cfg : Config) (s : DEState) : Prop :=
  ∀ j, checkConstraintsAll cfg.constraints (s.population.getD j []) = true

/-- Concrete 4-agent, 1-parameter configuration used by witnesses. -/
def cfgW : Config := ⟨4, 1, [⟨0, 100, true⟩], true⟩

/-- A 4-agent, 2-parameter configuration used by witnesses. -/
def cfg42 : Config := ⟨4, 2, [], true⟩

/-- A concrete cost function: the first coordinate. -/
def costW : List ℚ → ℚ := fun v => v.getD 0 0

/-- A concrete engine state whose cost cache is consistent with `costW`. -/
def sW : DEState := ⟨[[10], [20], [30], [40]], [10, 20, 30, 40], 0, ((10 : ℚ) : WithBot ℚ)⟩

/-- Concrete slot draws: donor triple `(x+1, x+2, x+3) mod 4` at every round,
forced dimension `0`, and per-dimension draws `r = 0`. -/
def drawsW : ℕ → SlotDraws :=
  fun x => ⟨fun _ _ => ((x + 1) % 4, (x + 2) % 4, (x + 3) % 4), fun _ => 0, fun _ _ => 0⟩

/-- Concrete run draws: zero initialization draws and `drawsW` in every generation. -/
def rdW : RunDraws := ⟨fun _ _ => 0, fun _ => drawsW⟩

/-- Failing input for the best-tracking claim: the initialization draws make the
agent costs strictly decrease with the index, so the true argmin is slot 3. -/
def cfgC1 : Config := ⟨4, 1, [⟨0, 10, true⟩], true⟩

/-- Initialization draws realising agents `[3], [2], [1], [0]`. -/
def drawsC1 : ℕ → ℕ → ℚ :=
  fun j _ => if j = 0 then 3 else if j = 1 then 2 else if j = 2 then 1 else 0

/-- Configuration with an enforced bound `[0, 1]` but constraint checking off. -/
def cfgNC : Config := ⟨4, 1, [⟨0, 1, true⟩], false⟩

/-- Cost that rewards large first coordinates (minimum outside `[0, 1]`). -/
def costNC : List ℚ → ℚ := fun v => 5 - v.getD 0 0

/-- State for the disabled-constraint-check scenario, consistent with `costNC`. -/
def sNC : DEState := ⟨[[0], [1/2], [1], [1/4]], [5, 9/2, 4, 19/4], 0, ((5 : ℚ) : WithBot ℚ)⟩

/-- The state `sNC` reaches after slot 0 accepts the infeasible trial `[11/10]`. -/
def sNCres : DEState :=
  ⟨[[11/10], [1/2], [1], [1/4]], [39/10, 9/2, 4, 19/4], 0, ((5 : ℚ) : WithBot ℚ)⟩

/-- The state `sW` reaches after its slot 3 accepts the trial `[2]`. -/
def sW3res : DEState := ⟨[[10], [20], [30], [2]], [10, 20, 30, 2], 0, ((10 : ℚ) : WithBot ℚ)⟩

/-- The state after one full `SelectionAndCorssing` pass over `sW`. -/
def sWstep : DEState := ⟨[[10], [20], [30], [2]], [10, 20, 30, 2], 3, ((2 : ℚ) : WithBot ℚ)⟩

/-- The state after `Optimize`'s initialization with the all-zero draws of `rdW`. -/
def sOpt1 : DEState := ⟨[[0], [0], [0], [0]], [0, 0, 0, 0], 0, ((0 : ℚ) : WithBot ℚ)⟩

/-- A constant donor draw stream. -/
def seq123 : ℕ → ℕ × ℕ × ℕ := fun _ => (1, 2, 3)

/- ------------------------------------------------------------------ -/
/- Generic list access lemmas used throughout. -/

theorem getD_range_map {α : Type} (f : ℕ → α) (n i : ℕ) (d : α) (h : i < n) :
    ((List.range n).map f).getD i d = f i := by
  rw [List.getD_eq_getElem?_getD]
  simp [List.getElem?_map, List.getElem?_range, h]

theorem getD_range_map_ge {α : Type} (f : ℕ → α) (n i : ℕ) (d : α) (h : n ≤ i) :
    ((List.range n).map f).getD i d = d := by
  rw [List.getD_eq_getElem?_getD]
  rw [List.getElem?_eq_none (by simp [h])]
  rfl

theorem getD_set_self {α : Type} (l : List α) (i : ℕ) (a d : α) (h : i < l.length) :
    (l.set i a).getD i d = a := by
  rw [List.getD_eq_getElem?_getD, List.getElem?_set_eq_of_lt a h]
  rfl

theorem getD_set_ne {α : Type} (l : List α) (i j : ℕ) (a d : α) (h : i ≠ j) :
    (l.set i a).getD j d = l.getD j d := by
  rw [List.getD_eq_getElem?_getD, List.getD_eq_getElem?_getD, List.getElem?_set_ne h]

theorem getD_replicate_lt {α : Type} (n i : ℕ) (a d : α) (h : i < n) :
    (List.replicate n a).getD i d = a := by
  rw [List.getD_eq_getElem?_getD]
  simp [List.getElem?_replicate, h]

theorem getD_set_le {α : Type} (l : List α) (i j : ℕ) (a d : α) (hle : l.length ≤ i) :
    (l.set i a).getD j d = l.getD j d := by
  rw [List.set_eq_of_length_le hle]

theorem getD_map_lt {α β : Type} (f : α → β) (l : List α) (i : ℕ) (d : β) (d' : α)
    (h : i < l.length) : (l.map f).getD i d = f (l.getD i d') := by
  rw [List.getD_eq_getElem?_getD, List.getD_eq_getElem?_getD, List.getElem?_map]
  rw [List.getElem?_eq_getElem h]
  rfl

/- ------------------------------------------------------------------ -/
/- C6 -/

/-- C6: constructing the optimizer with `populationSize < 4` fails the
`assert(m_populationSize >= 4)` (modelled by `mkOptimizer` returning `none`);
in particular `populationSize = 3` fails, and construction fails exactly when
`populationSize < 4` (no clamping). -/
theorem constructPopSizeTooSmallFails :
    mkOptimizer ⟨3, 2, [], true⟩ = none ∧
    ∀ cfg : Config, mkOptimizer cfg = none ↔ cfg.popSize < 4 := by
  constructor
  · simp [mkOptimizer]
  · intro cfg
    unfold mkOptimizer
    split <;> rename_i h <;> simp <;> omega

/- ------------------------------------------------------------------ -/
/- C10 -/

/-- C10: right after a successful construction (before `InitPopulation`),
`m_bestAgentIndex` is `0`, the population and the cost cache are zero-filled,
`GetBestAgent` returns `numberOfParameters` zeros and `GetBestCost` returns
`0.0`. -/
theorem accessorsBeforeInitDefaults (cfg : Config) (s : DEState)
    (h : mkOptimizer cfg = some s) :
    s.bestAgentIndex = 0 ∧
    getBestAgent s = List.replicate cfg.nparams 0 ∧
    getBestCost s = 0 ∧
    s.population = List.replicate cfg.popSize (List.replicate cfg.nparams 0) ∧
    s.minCostPerAgent = List.replicate cfg.popSize 0 := by
  unfold mkOptimizer at h
  split at h
  · rename_i h4
    obtain rfl : constructState cfg = s := Option.some.inj h
    refine ⟨rfl, ?_, ?_, rfl, rfl⟩
    · simp only [getBestAgent, constructState]
      exact getD_replicate_lt _ _ _ _ (by omega)
    · simp only [getBestCost, constructState]
      exact getD_replicate_lt _ _ _ _ (by omega)
  · exact absurd h (by simp)

/-- Witness for C10 at the concrete configuration `cfg42`. -/
theorem accessorsBeforeInitDefaultsWitness :
    mkOptimizer cfg42 = some (constructState cfg42) ∧
    ((constructState cfg42).bestAgentIndex = 0 ∧
     getBestAgent (constructState cfg42) = List.replicate cfg42.nparams 0 ∧
     getBestCost (constructState cfg42) = 0 ∧
     (constructState cfg42).population =
       List.replicate cfg42.popSize (List.replicate cfg42.nparams 0) ∧
     (constructState cfg42).minCostPerAgent = List.replicate cfg42.popSize 0) :=
  ⟨rfl, accessorsBeforeInitDefaults cfg42 (constructState cfg42) rfl⟩

/- ------------------------------------------------------------------ -/
/- C2 -/

/-- C2: in every generation step the trial vector `newX` takes the mutated value
`population[a][i] + F * (population[b][i] - population[c][i])` at dimension `i`
exactly when `r[i] < CR` or `i = R`, and keeps `population[x][i]` otherwise;
at the forced dimension `R` it always takes the mutated value; `F = 0.8` and
`CR = 0.9`. -/
theorem trialVectorFormula (cfg : Config) (pop : List (List ℚ)) (x a b c R : ℕ)
    (r : ℕ → ℚ) (i : ℕ) (hi : i < cfg.nparams) (hR : R < cfg.nparams) :
    ((trialVector cfg pop x a b c R r).getD i 0 =
      if r i < m_CR ∨ i = R then
        (pop.getD a []).getD i 0 + m_F * ((pop.getD b []).getD i 0 - (pop.getD c []).getD i 0)
      else (pop.getD x []).getD i 0) ∧
    (trialVector cfg pop x a b c R r).getD R 0 =
      (pop.getD a []).getD R 0 + m_F * ((pop.getD b []).getD R 0 - (pop.getD c []).getD R 0) ∧
    m_F = 0.8 ∧ m_CR = 0.9 := by
  have key : ∀ j, j < cfg.nparams →
      (trialVector cfg pop x a b c R r).getD j 0 =
        if r j < m_CR ∨ j = R then
          (pop.getD a []).getD j 0 + m_F * ((pop.getD b []).getD j 0 - (pop.getD c []).getD j 0)
        else (pop.getD x []).getD j 0 := by
    intro j hj
    unfold trialVector crossover
    rw [getD_range_map _ _ _ _ hj]
    by_cases hc : r j < m_CR ∨ j = R
    · rw [if_pos hc, if_pos hc]
      unfold mutantVector
      rw [getD_range_map _ _ _ _ hj]
    · rw [if_neg hc, if_neg hc]
  refine ⟨key i hi, ?_, rfl, rfl⟩
  rw [key R hR]
  rw [if_pos (Or.inr rfl)]

/-- Witness for C2 at slot 0 of the concrete state `sW`. -/
theorem trialVectorFormulaWitness :
    0 < cfgW.nparams ∧
    (((trialVector cfgW sW.population 0 1 2 3 0 (fun _ => 0)).getD 0 0 =
      if (fun _ => (0 : ℚ)) 0 < m_CR ∨ 0 = 0 then
        (sW.population.getD 1 []).getD 0 0 +
          m_F * ((sW.population.getD 2 []).getD 0 0 - (sW.population.getD 3 []).getD 0 0)
      else (sW.population.getD 0 []).getD 0 0) ∧
    (trialVector cfgW sW.population 0 1 2 3 0 (fun _ => 0)).getD 0 0 =
      (sW.population.getD 1 []).getD 0 0 +
        m_F * ((sW.population.getD 2 []).getD 0 0 - (sW.population.getD 3 []).getD 0 0) ∧
    m_F = 0.8 ∧ m_CR = 0.9) :=
  ⟨by decide,
   trialVectorFormula cfgW sW.population 0 1 2 3 0 (fun _ => 0) 0 (by decide) (by decide)⟩

/- ------------------------------------------------------------------ -/
/- C7 -/

/-- C7: with one internally owned, deterministically seeded generator (modelled
by the realised draw streams), two runs of `Optimize` with identical
configuration produce identical results: same outcome, same final best agent,
and the same generation-by-generation best-cost trajectory. -/
theorem optimizeDeterministic (cfg : Config) (cost : List ℚ → ℚ) (draws : RunDraws)
    (dfuel afuel : ℕ) (hasCb : Bool) (term : Option (DEState → Bool)) (n : ℕ)
    (r1 r2 : Option (DEState × ℕ × StopReason × List Event))
    (h1 : r1 = optimize cfg cost draws dfuel afuel hasCb term n)
    (h2 : r2 = optimize cfg cost draws dfuel afuel hasCb term n) :
    r1 = r2 ∧
    r1.map (fun out => getBestAgent out.1) = r2.map (fun out => getBestAgent out.1) ∧
    bestCostTrajectory cfg cost dfuel afuel draws.gen
        (initPopulation cfg cost draws.initDraws (constructState cfg)) n =
      bestCostTrajectory cfg cost dfuel afuel draws.gen
        (initPopulation cfg cost draws.initDraws (constructState cfg)) n := by
  subst h1
  subst h2
  exact ⟨rfl, rfl, rfl⟩

/-- Witness for C7 on the concrete fixture run. -/
theorem optimizeDeterministicWitness :
    optimize cfgW costW rdW 1 1 false none 1 = optimize cfgW costW rdW 1 1 false none 1 ∧
    (optimize cfgW costW rdW 1 1 false none 1).map (fun out => getBestAgent out.1) =
      (optimize cfgW costW rdW 1 1 false none 1).map (fun out => getBestAgent out.1) ∧
    bestCostTrajectory cfgW costW 1 1 rdW.gen
        (initPopulation cfgW costW rdW.initDraws (constructState cfgW)) 1 =
      bestCostTrajectory cfgW costW 1 1 rdW.gen
        (initPopulation cfgW costW rdW.initDraws (constructState cfgW)) 1 :=
  optimizeDeterministic cfgW costW rdW 1 1 false none 1 _ _ rfl rfl

/- ------------------------------------------------------------------ -/
/- C1 -/

/-- C1 fails on the code: `m_minCost` is initialized to `-infinity` in the
constructor, so the scan at the end of `InitPopulation` never updates it (no
cost is `< -infinity`); after `InitPopulation` on the failing input the cache is
`[3, 2, 1, 0]`, yet `m_bestAgentIndex` stays `0`, `m_minCost` stays `-infinity`
and `GetBestCost` returns `3`, not the cache minimum `0` held at slot 3. -/
theorem initBestTrackingBroken :
    (initPopulation cfgC1 costW drawsC1 (constructState cfgC1)).minCostPerAgent = [3, 2, 1, 0] ∧
    (initPopulation cfgC1 costW drawsC1 (constructState cfgC1)).bestAgentIndex = 0 ∧
    (initPopulation cfgC1 costW drawsC1 (constructState cfgC1)).minCost = ⊥ ∧
    getBestCost (initPopulation cfgC1 costW drawsC1 (constructState cfgC1)) = 3 ∧
    getBestCost (initPopulation cfgC1 costW drawsC1 (constructState cfgC1)) ≠
      (initPopulation cfgC1 costW drawsC1 (constructState cfgC1)).minCostPerAgent.getD 3 0 := by
  norm_num [initPopulation, bestScanAux, cfgC1, drawsC1, costW, constructState, getBestCost,
    List.range_succ, not_lt_bot]

/- ------------------------------------------------------------------ -/
/- C8 -/

theorem findDonors_shift (x : ℕ) (seq : ℕ → ℕ × ℕ × ℕ) :
    ∀ fuel k, findDonors x seq fuel (k + 1) = findDonors x (fun m => seq (m + 1)) fuel k := by
  intro fuel
  induction fuel with
  | zero => intro k; rfl
  | succ n ih =>
    intro k
    simp only [findDonors]
    rw [ih (k + 1)]

theorem findDonors_valid (x : ℕ) (seq : ℕ → ℕ × ℕ × ℕ) :
    ∀ fuel k a b c, findDonors x seq fuel k = some (a, b, c) →
      validDonors x a b c = true ∧ ∃ m, seq m = (a, b, c) := by
  intro fuel
  induction fuel with
  | zero => intro k a b c h; exact absurd h (by simp [findDonors])
  | succ n ih =>
    intro k a b c h
    simp only [findDonors] at h
    by_cases hv : validDonors x (seq k).1 (seq k).2.1 (seq k).2.2 = true
    · rw [if_pos hv] at h
      have hk : seq k = (a, b, c) := Option.some.inj h
      rw [hk] at hv
      exact ⟨hv, k, hk⟩
    · rw [if_neg hv] at h
      exact ih (k + 1) a b c h

/-- C8: whenever the donor rejection loop returns a triple it consists of
indices `< populationSize` (given that every realised draw is) that are
pairwise distinct and distinct from `x`; the loop terminates as soon as the
draw stream contains a valid triple; and for `populationSize ≥ 4` a valid
in-range triple always exists for every slot `x`. -/
theorem donorSelectionSpec :
    (∀ (n x : ℕ) (seq : ℕ → ℕ × ℕ × ℕ) (fuel k a b c : ℕ),
      (∀ m, (seq m).1 < n ∧ (seq m).2.1 < n ∧ (seq m).2.2 < n) →
      findDonors x seq fuel k = some (a, b, c) →
      a < n ∧ b < n ∧ c < n ∧ a ≠ x ∧ b ≠ x ∧ c ≠ x ∧ a ≠ b ∧ a ≠ c ∧ b ≠ c) ∧
    (∀ (x : ℕ) (seq : ℕ → ℕ × ℕ × ℕ) (j : ℕ),
      validDonors x (seq j).1 (seq j).2.1 (seq j).2.2 = true →
      ∃ t, findDonors x seq (j + 1) 0 = some t) ∧
    (∀ n x : ℕ, 4 ≤ n → x < n →
      ∃ a b c : ℕ, a < n ∧ b < n ∧ c < n ∧ validDonors x a b c = true) := by
  refine ⟨?_, ?_, ?_⟩
  · intro n x seq fuel k a b c hrange h
    obtain ⟨hv, m, hm⟩ := findDonors_valid x seq fuel k a b c h
    have hb := hrange m
    rw [hm] at hb
    simp only [validDonors, Bool.not_eq_true', Bool.or_eq_false_iff, beq_eq_false_iff_ne,
      ne_eq] at hv
    exact ⟨hb.1, hb.2.1, hb.2.2, hv.1.1.1.1.1, hv.1.1.1.1.2, hv.1.1.1.2,
      hv.1.1.2, hv.1.2, hv.2⟩
  · intro x seq j
    induction j generalizing seq with
    | zero =>
      intro hv
      exact ⟨seq 0, by simp [findDonors, hv]⟩
    | succ j ih =>
      intro hv
      by_cases h0 : validDonors x (seq 0).1 (seq 0).2.1 (seq 0).2.2 = true
      · exact ⟨seq 0, by simp [findDonors, h0]⟩
      · obtain ⟨t, ht⟩ := ih (fun m => seq (m + 1)) hv
        refine ⟨t, ?_⟩
        rw [findDonors]
        rw [if_neg h0]
        rw [findDonors_shift x seq (j + 1) 0]
        exact ht
  · intro n x h4 hx
    refine ⟨if x = 0 then 1 else 0, if x ≤ 1 then 2 else 1, if x ≤ 2 then 3 else 2,
      ?_, ?_, ?_, ?_⟩
    · split <;> omega
    · split <;> omega
    · split <;> omega
    · rcases Nat.lt_or_ge x 4 with hlt | hge
      · interval_cases x <;> decide
      · rw [if_neg (by omega : ¬ x = 0), if_neg (by omega : ¬ x ≤ 1), if_neg (by omega : ¬ x ≤ 2)]
        simp only [validDonors, Bool.not_eq_true', Bool.or_eq_false_iff, beq_eq_false_iff_ne,
          ne_eq]
        omega

/-- Witness for C8's donor validity at a concrete draw stream. -/
theorem donorSelectionSpecWitness :
    (∀ m, (seq123 m).1 < 4 ∧ (seq123 m).2.1 < 4 ∧ (seq123 m).2.2 < 4) ∧
    findDonors 0 seq123 1 0 = some (1, 2, 3) ∧
    (1 < 4 ∧ 2 < 4 ∧ 3 < 4 ∧ 1 ≠ 0 ∧ 2 ≠ 0 ∧ 3 ≠ 0 ∧ 1 ≠ 2 ∧ 1 ≠ 3 ∧ 2 ≠ 3) :=
  ⟨fun m => by norm_num [seq123], rfl,
   donorSelectionSpec.1 4 0 seq123 1 0 1 2 3 (fun m => by norm_num [seq123]) rfl⟩

/- ------------------------------------------------------------------ -/
/- Characterization of one slot of `SelectionAndCorssing`. -/

theorem processSlotAux_spec (cfg : Config) (cost : List ℚ → ℚ) (d : SlotDraws)
    (dfuel x : ℕ) (s : DEState) :
    ∀ fuel k s', processSlotAux cfg cost d dfuel x s fuel k = some s' →
      ∃ newX : List ℚ,
        (∃ m a b c, findDonors x (d.donorSeq m) dfuel 0 = some (a, b, c) ∧
            newX = trialVector cfg s.population x a b c (d.bigR m) (d.rvals m)) ∧
        (cfg.shouldCheckConstraints = true →
          checkConstraintsAll cfg.constraints newX = true) ∧
        ((¬ cost newX < s.minCostPerAgent.getD x 0 ∧ s' = s) ∨
          (cost newX < s.minCostPerAgent.getD x 0 ∧
            s' = ⟨s.population.set x newX, s.minCostPerAgent.set x (cost newX),
                  s.bestAgentIndex, s.minCost⟩)) := by
  intro fuel
  induction fuel with
  | zero => intro k s' h; exact absurd h (by simp [processSlotAux])
  | succ n ih =>
    intro k s' h
    cases hfd : findDonors x (d.donorSeq k) dfuel 0 with
    | none =>
      simp only [processSlotAux, hfd] at h
      exact Option.noConfusion h
    | some t =>
      obtain ⟨a, b, c⟩ := t
      simp only [processSlotAux, hfd] at h
      by_cases hg : (cfg.shouldCheckConstraints &&
          !checkConstraintsAll cfg.constraints
            (trialVector cfg s.population x a b c (d.bigR k) (d.rvals k))) = true
      · rw [if_pos hg] at h
        exact ih (k + 1) s' h
      · rw [if_neg hg] at h
        have hgate : cfg.shouldCheckConstraints = true →
            checkConstraintsAll cfg.constraints
              (trialVector cfg s.population x a b c (d.bigR k) (d.rvals k)) = true := by
          intro hs
          by_contra hc
          have hc' : checkConstraintsAll cfg.constraints
              (trialVector cfg s.population x a b c (d.bigR k) (d.rvals k)) = false := by
            cases hcc : checkConstraintsAll cfg.constraints
                (trialVector cfg s.population x a b c (d.bigR k) (d.rvals k))
            · rfl
            · exact absurd hcc hc
          exact hg (by rw [hs, hc']; rfl)
        by_cases hlt : cost (trialVector cfg s.population x a b c (d.bigR k) (d.rvals k)) <
            s.minCostPerAgent.getD x 0
        · rw [if_pos hlt] at h
          exact ⟨_, ⟨k, a, b, c, hfd, rfl⟩, hgate, Or.inr ⟨hlt, (Option.some.inj h).symm⟩⟩
        · rw [if_neg hlt] at h
          exact ⟨_, ⟨k, a, b, c, hfd, rfl⟩, hgate, Or.inl ⟨hlt, (Option.some.inj h).symm⟩⟩

/-- Any property of the engine state preserved by every slot update is
preserved by the whole slot loop. -/
theorem slotsLoop_induction (cfg : Config) (cost : List ℚ → ℚ) (draws : ℕ → SlotDraws)
    (dfuel afuel : ℕ) (P : DEState → Prop)
    (hstep : ∀ x s s', processSlot cfg cost (draws x) dfuel afuel x s = some s' → P s → P s') :
    ∀ (xs : List ℕ) (s : DEState) (mc : ℚ) (bi : ℕ) (s' : DEState) (mc' : ℚ) (bi' : ℕ),
      slotsLoop cfg cost draws dfuel afuel xs s mc bi = some (s', mc', bi') →
      P s → P s' := by
  intro xs
  induction xs with
  | nil =>
    intro s mc bi s' mc' bi' h hs
    simp only [slotsLoop, Option.some.injEq, Prod.mk.injEq] at h
    obtain ⟨rfl, -, -⟩ := h
    exact hs
  | cons x xs ih =>
    intro s mc bi s' mc' bi' h hs
    cases hps : processSlot cfg cost (draws x) dfuel afuel x s with
    | none =>
      simp only [slotsLoop, hps] at h
      exact Option.noConfusion h
    | some s₁ =>
      simp only [slotsLoop, hps] at h
      have hP1 := hstep x s s₁ hps hs
      by_cases hc : s₁.minCostPerAgent.getD x 0 < mc
      · rw [if_pos hc] at h
        exact ih s₁ _ _ s' mc' bi' h hP1
      · rw [if_neg hc] at h
        exact ih s₁ mc bi s' mc' bi' h hP1

theorem selectionAndCorssing_elim (cfg : Config) (cost : List ℚ → ℚ)
    (draws : ℕ → SlotDraws) (dfuel afuel : ℕ) (s s' : DEState)
    (h : selectionAndCorssing cfg cost draws dfuel afuel s = some s') :
    ∃ s₁ mc bi,
      slotsLoop cfg cost draws dfuel afuel (List.range cfg.popSize) s
        (s.minCostPerAgent.getD 0 0) 0 = some (s₁, mc, bi) ∧
      s' = ⟨s₁.population, s₁.minCostPerAgent, bi, (mc : WithBot ℚ)⟩ := by
  cases hsl : slotsLoop cfg cost draws dfuel afuel (List.range cfg.popSize) s
      (s.minCostPerAgent.getD 0 0) 0 with
  | none =>
    simp only [selectionAndCorssing, hsl] at h
    exact Option.noConfusion h
  | some t =>
    obtain ⟨s₁, mc, bi⟩ := t
    simp only [selectionAndCorssing, hsl] at h
    exact ⟨s₁, mc, bi, rfl, (Option.some.inj h).symm⟩

/- ------------------------------------------------------------------ -/
/- C3 -/

/-- C3: a trial replaces slot `x` (its candidate and its cached cost) exactly
when its evaluated cost is strictly smaller than the cached cost at `x`
(a trial with equal or worse cost leaves the state unchanged); consequently
every slot's cached cost is monotonically non-increasing across a full
`SelectionAndCorssing` pass. -/
theorem selectionGreedySpec :
    (∀ (cfg : Config) (cost : List ℚ → ℚ) (d : SlotDraws) (dfuel afuel x : ℕ)
      (s s' : DEState),
      processSlot cfg cost d dfuel afuel x s = some s' →
      ∃ newX : List ℚ,
        ((cost newX < s.minCostPerAgent.getD x 0 ∧
          s'.population = s.population.set x newX ∧
          s'.minCostPerAgent = s.minCostPerAgent.set x (cost newX)) ∨
         (¬ cost newX < s.minCostPerAgent.getD x 0 ∧ s' = s))) ∧
    (∀ (cfg : Config) (cost : List ℚ → ℚ) (draws : ℕ → SlotDraws) (dfuel afuel : ℕ)
      (s s' : DEState),
      selectionAndCorssing cfg cost draws dfuel afuel s = some s' →
      ∀ x, s'.minCostPerAgent.getD x 0 ≤ s.minCostPerAgent.getD x 0) := by
  constructor
  · intro cfg cost d dfuel afuel x s s' h
    obtain ⟨newX, -, -, hcase⟩ := processSlotAux_spec cfg cost d dfuel x s afuel 0 s' h
    rcases hcase with ⟨hnlt, rfl⟩ | ⟨hlt, rfl⟩
    · exact ⟨newX, Or.inr ⟨hnlt, rfl⟩⟩
    · exact ⟨newX, Or.inl ⟨hlt, rfl, rfl⟩⟩
  · intro cfg cost draws dfuel afuel s s' h x
    obtain ⟨s₁, mc, bi, hsl, rfl⟩ := selectionAndCorssing_elim cfg cost draws dfuel afuel s s' h
    have key : ∀ y, s₁.minCostPerAgent.getD y 0 ≤ s.minCostPerAgent.getD y 0 := by
      refine slotsLoop_induction cfg cost draws dfuel afuel
        (fun t => ∀ y, t.minCostPerAgent.getD y 0 ≤ s.minCostPerAgent.getD y 0)
        ?_ (List.range cfg.popSize) s (s.minCostPerAgent.getD 0 0) 0 s₁ mc bi hsl
        (fun y => le_refl _)
      intro z s₀ s₂ hps hP
      obtain ⟨newX, -, -, hcase⟩ := processSlotAux_spec cfg cost (draws z) dfuel z s₀ afuel 0 s₂ hps
      rcases hcase with ⟨-, rfl⟩ | ⟨hlt, rfl⟩
      · exact hP
      · intro y
        by_cases hyz : z = y
        · subst hyz
          by_cases hz : z < s₀.minCostPerAgent.length
          · have : (s₀.minCostPerAgent.set z (cost newX)).getD z 0 = cost newX :=
              getD_set_self _ _ _ _ hz
            rw [this]
            exact le_trans (le_of_lt hlt) (hP z)
          · rw [getD_set_le _ _ _ _ _ (by omega)]
            exact hP z
        · rw [getD_set_ne _ _ _ _ _ hyz]
          exact hP y
    exact key x

/-- Witness for C3 on the concrete slot-3 update and full pass over `sW`. -/
theorem selectionGreedySpecWitness :
    processSlot cfgW costW (drawsW 3) 1 1 3 sW = some sW3res ∧
    (∃ newX : List ℚ,
      ((costW newX < sW.minCostPerAgent.getD 3 0 ∧
        sW3res.population = sW.population.set 3 newX ∧
        sW3res.minCostPerAgent = sW.minCostPerAgent.set 3 (costW newX)) ∨
       (¬ costW newX < sW.minCostPerAgent.getD 3 0 ∧ sW3res = sW))) ∧
    selectionAndCorssing cfgW costW drawsW 1 1 sW = some sWstep ∧
    (∀ x, sWstep.minCostPerAgent.getD x 0 ≤ sW.minCostPerAgent.getD x 0) := by
  have h1 : processSlot cfgW costW (drawsW 3) 1 1 3 sW = some sW3res := by
    norm_num [processSlot, processSlotAux, findDonors, validDonors, trialVector, crossover,
      mutantVector, checkConstraintsAll, Constraints.check, cfgW, costW, drawsW, sW, sW3res,
      m_F, m_CR, List.range_succ]
  have h2 : selectionAndCorssing cfgW costW drawsW 1 1 sW = some sWstep := by
    norm_num [selectionAndCorssing, slotsLoop, processSlot, processSlotAux, findDonors,
      validDonors, trialVector, crossover, mutantVector, checkConstraintsAll,
      Constraints.check, cfgW, costW, drawsW, sW, sWstep, m_F, m_CR, List.range_succ]
  exact ⟨h1, selectionGreedySpec.1 cfgW costW (drawsW 3) 1 1 3 sW sW3res h1,
    h2, selectionGreedySpec.2 cfgW costW drawsW 1 1 sW sWstep h2⟩

/- ------------------------------------------------------------------ -/
/- C4 -/

theorem checkConstraintsAll_range_map (cs : List Constraints) (n : ℕ) (g : ℕ → ℚ)
    (h : ∀ i, i < n → (cs.getD i default).check (g i) = true) :
    checkConstraintsAll cs ((List.range n).map g) = true := by
  unfold checkConstraintsAll
  rw [List.all_eq_true]
  intro i hi
  simp only [List.length_map, List.length_range, List.mem_range] at hi
  rw [getD_range_map _ _ _ _ hi]
  exact h i hi

/-- C4: with constraint checking enabled, every candidate stored after
`InitPopulation` (whose draws land in the sampled intervals) or after any
`SelectionAndCorssing` pass satisfies `CheckConstraints`; a trial violating an
enforced bound makes the loop retry the same slot `x` (the attempt counter
advances, the slot does not); with checking disabled, an out-of-bound trial is
accepted whenever it improves the slot's cost, as the concrete run shows. -/
theorem constraintGateSpec :
    (∀ (cfg : Config) (cost : List ℚ → ℚ) (draws : ℕ → ℕ → ℚ) (s : DEState),
      (∀ j i, (cfg.constraints.getD i default).check (draws j i) = true) →
      allFeasible cfg (initPopulation cfg cost draws s)) ∧
    (∀ (cfg : Config) (cost : List ℚ → ℚ) (draws : ℕ → SlotDraws) (dfuel afuel : ℕ)
      (s s' : DEState),
      cfg.shouldCheckConstraints = true →
      selectionAndCorssing cfg cost draws dfuel afuel s = some s' →
      allFeasible cfg s → allFeasible cfg s') ∧
    (∀ (cfg : Config) (cost : List ℚ → ℚ) (d : SlotDraws) (dfuel fuel x k a b c : ℕ)
      (s : DEState),
      cfg.shouldCheckConstraints = true →
      findDonors x (d.donorSeq k) dfuel 0 = some (a, b, c) →
      checkConstraintsAll cfg.constraints
        (trialVector cfg s.population x a b c (d.bigR k) (d.rvals k)) = false →
      processSlotAux cfg cost d dfuel x s (fuel + 1) k =
        processSlotAux cfg cost d dfuel x s fuel (k + 1)) ∧
    (processSlot cfgNC costNC (drawsW 0) 1 1 0 sNC = some sNCres ∧
      checkConstraintsAll cfgNC.constraints (sNCres.population.getD 0 []) = false ∧
      sNCres.minCostPerAgent.getD 0 0 < sNC.minCostPerAgent.getD 0 0) := by
  refine ⟨?_, ?_, ?_, ?_, ?_, ?_⟩
  · intro cfg cost draws s hdr j
    simp only [initPopulation]
    by_cases hj : j < cfg.popSize
    · rw [getD_range_map _ _ _ _ hj]
      exact checkConstraintsAll_range_map _ _ _ (fun i _ => hdr j i)
    · rw [getD_range_map_ge _ _ _ _ (by omega)]
      rfl
  · intro cfg cost draws dfuel afuel s s' hflag h hfeas
    obtain ⟨s₁, mc, bi, hsl, rfl⟩ := selectionAndCorssing_elim cfg cost draws dfuel afuel s s' h
    have key : allFeasible cfg s₁ := by
      refine slotsLoop_induction cfg cost draws dfuel afuel (allFeasible cfg)
        ?_ (List.range cfg.popSize) s (s.minCostPerAgent.getD 0 0) 0 s₁ mc bi hsl hfeas
      intro z s₀ s₂ hps hP
      obtain ⟨newX, -, hgate, hcase⟩ :=
        processSlotAux_spec cfg cost (draws z) dfuel z s₀ afuel 0 s₂ hps
      rcases hcase with ⟨-, rfl⟩ | ⟨-, rfl⟩
      · exact hP
      · intro j
        by_cases hjz : z = j
        · subst hjz
          by_cases hz : z < s₀.population.length
          · have : (s₀.population.set z newX).getD z [] = newX := getD_set_self _ _ _ _ hz
            simp only [this]
            exact hgate hflag
          · rw [show (⟨s₀.population.set z newX, s₀.minCostPerAgent.set z (cost newX),
                s₀.bestAgentIndex, s₀.minCost⟩ : DEState).population = s₀.population.set z newX
                from rfl]
            rw [getD_set_le _ _ _ _ _ (by omega)]
            exact hP z
        · rw [show (⟨s₀.population.set z newX, s₀.minCostPerAgent.set z (cost newX),
              s₀.bestAgentIndex, s₀.minCost⟩ : DEState).population = s₀.population.set z newX
              from rfl]
          rw [getD_set_ne _ _ _ _ _ hjz]
          exact hP j
    exact key
  · intro cfg cost d dfuel fuel x k a b c s hflag hfd hviol
    simp [processSlotAux, hfd, hflag, hviol]
  · norm_num [processSlot, processSlotAux, findDonors, validDonors, trialVector, crossover,
      mutantVector, checkConstraintsAll, Constraints.check, cfgNC, costNC, drawsW, sNC, sNCres,
      m_F, m_CR, List.range_succ]
  · norm_num [checkConstraintsAll, Constraints.check, cfgNC, sNCres, List.range_succ]
  · norm_num [sNC, sNCres]

/-- Witness for C4's feasibility preservation on the concrete pass over `sW`. -/
theorem constraintGateSpecWitness :
    cfgW.shouldCheckConstraints = true ∧
    selectionAndCorssing cfgW costW drawsW 1 1 sW = some sWstep ∧
    allFeasible cfgW sW ∧ allFeasible cfgW sWstep := by
  have hstep : selectionAndCorssing cfgW costW drawsW 1 1 sW = some sWstep := by
    norm_num [selectionAndCorssing, slotsLoop, processSlot, processSlotAux, findDonors,
      validDonors, trialVector, crossover, mutantVector, checkConstraintsAll,
      Constraints.check, cfgW, costW, drawsW, sW, sWstep, m_F, m_CR, List.range_succ]
  have hfeas : allFeasible cfgW sW := by
    intro j
    rcases j with _ | _ | _ | _ | n <;>
      norm_num [checkConstraintsAll, Constraints.check, cfgW, sW, List.range_succ]
  exact ⟨rfl, hstep, hfeas,
    constraintGateSpec.2.1 cfgW costW drawsW 1 1 sW sWstep rfl hstep hfeas⟩

/- ------------------------------------------------------------------ -/
/- C5 -/

/-- C5: after `InitPopulation` and after every `SelectionAndCorssing` pass the
cost cache satisfies `m_minCostPerAgent[i] = cost(m_population[i])` for every
slot (updated slots are never stale), and `GetPopulationWithCosts` returns
exactly `populationSize` entries whose `i`-th entry is the pair
`(m_population[i], m_minCostPerAgent[i])`. -/
theorem cacheSyncAccessorSpec :
    (∀ (cfg : Config) (cost : List ℚ → ℚ) (draws : ℕ → ℕ → ℚ) (s : DEState),
      cacheSynced cfg cost (initPopulation cfg cost draws s) ∧
      (initPopulation cfg cost draws s).population.length = cfg.popSize ∧
      (initPopulation cfg cost draws s).minCostPerAgent.length = cfg.popSize) ∧
    (∀ (cfg : Config) (cost : List ℚ → ℚ) (draws : ℕ → SlotDraws) (dfuel afuel : ℕ)
      (s s' : DEState),
      selectionAndCorssing cfg cost draws dfuel afuel s = some s' →
      s.population.length = cfg.popSize →
      s.minCostPerAgent.length = cfg.popSize →
      cacheSynced cfg cost s →
      cacheSynced cfg cost s' ∧ s'.population.length = cfg.popSize ∧
        s'.minCostPerAgent.length = cfg.popSize) ∧
    (∀ (cfg : Config) (s : DEState),
      (getPopulationWithCosts cfg s).length = cfg.popSize ∧
      ∀ i, i < cfg.popSize →
        (getPopulationWithCosts cfg s).getD i ([], 0) =
          (s.population.getD i [], s.minCostPerAgent.getD i 0)) := by
  refine ⟨?_, ?_, ?_⟩
  · intro cfg cost draws s
    refine ⟨?_, by simp [initPopulation], by simp [initPopulation]⟩
    intro i hi
    simp only [initPopulation]
    have hlen : ((List.range cfg.popSize).map
        (fun j => (List.range cfg.nparams).map (draws j))).length = cfg.popSize := by simp
    rw [getD_map_lt _ _ _ _ [] (by rw [hlen]; exact hi)]
  · intro cfg cost draws dfuel afuel s s' h hlp hlc hsync
    obtain ⟨s₁, mc, bi, hsl, rfl⟩ := selectionAndCorssing_elim cfg cost draws dfuel afuel s s' h
    have key : s₁.population.length = cfg.popSize ∧ s₁.minCostPerAgent.length = cfg.popSize ∧
        cacheSynced cfg cost s₁ := by
      refine slotsLoop_induction cfg cost draws dfuel afuel
        (fun t => t.population.length = cfg.popSize ∧ t.minCostPerAgent.length = cfg.popSize ∧
          cacheSynced cfg cost t)
        ?_ (List.range cfg.popSize) s (s.minCostPerAgent.getD 0 0) 0 s₁ mc bi hsl
        ⟨hlp, hlc, hsync⟩
      intro z s₀ s₂ hps hP
      obtain ⟨hP1, hP2, hP3⟩ := hP
      obtain ⟨newX, -, -, hcase⟩ :=
        processSlotAux_spec cfg cost (draws z) dfuel z s₀ afuel 0 s₂ hps
      rcases hcase with ⟨-, rfl⟩ | ⟨-, rfl⟩
      · exact ⟨hP1, hP2, hP3⟩
      · refine ⟨by simp [hP1], by simp [hP2], ?_⟩
        intro i hi
        by_cases hiz : z = i
        · subst hiz
          have hzp : z < s₀.population.length := by omega
          have hzc : z < s₀.minCostPerAgent.length := by omega
          have e1 : (⟨s₀.population.set z newX, s₀.minCostPerAgent.set z (cost newX),
              s₀.bestAgentIndex, s₀.minCost⟩ : DEState).minCostPerAgent.getD z 0 = cost newX :=
            getD_set_self _ _ _ _ hzc
          have e2 : (⟨s₀.population.set z newX, s₀.minCostPerAgent.set z (cost newX),
              s₀.bestAgentIndex, s₀.minCost⟩ : DEState).population.getD z [] = newX :=
            getD_set_self _ _ _ _ hzp
          rw [e1, e2]
        · have e1 : (⟨s₀.population.set z newX, s₀.minCostPerAgent.set z (cost newX),
              s₀.bestAgentIndex, s₀.minCost⟩ : DEState).minCostPerAgent.getD i 0 =
              s₀.minCostPerAgent.getD i 0 := getD_set_ne _ _ _ _ _ hiz
          have e2 : (⟨s₀.population.set z newX, s₀.minCostPerAgent.set z (cost newX),
              s₀.bestAgentIndex, s₀.minCost⟩ : DEState).population.getD i [] =
              s₀.population.getD i [] := getD_set_ne _ _ _ _ _ hiz
          rw [e1, e2]
          exact hP3 i hi
    exact ⟨fun i hi => key.2.2 i hi, key.1, key.2.1⟩
  · intro cfg s
    refine ⟨by simp [getPopulationWithCosts], ?_⟩
    intro i hi
    simp only [getPopulationWithCosts]
    rw [getD_range_map _ _ _ _ hi]

/-- Witness for C5's cache synchronization on the concrete pass over `sW`. -/
theorem cacheSyncAccessorSpecWitness :
    selectionAndCorssing cfgW costW drawsW 1 1 sW = some sWstep ∧
    cacheSynced cfgW costW sW ∧
    (cacheSynced cfgW costW sWstep ∧ sWstep.population.length = cfgW.popSize ∧
      sWstep.minCostPerAgent.length = cfgW.popSize) := by
  have hstep : selectionAndCorssing cfgW costW drawsW 1 1 sW = some sWstep := by
    norm_num [selectionAndCorssing, slotsLoop, processSlot, processSlotAux, findDonors,
      validDonors, trialVector, crossover, mutantVector, checkConstraintsAll,
      Constraints.check, cfgW, costW, drawsW, sW, sWstep, m_F, m_CR, List.range_succ]
  have hsync : cacheSynced cfgW costW sW := by
    intro i hi
    have hi4 : i < 4 := hi
    interval_cases i <;> rfl
  exact ⟨hstep, hsync,
    cacheSyncAccessorSpec.2.1 cfgW costW drawsW 1 1 sW sWstep hstep rfl rfl hsync⟩

/- ------------------------------------------------------------------ -/
/- C9 -/

theorem optimizeLoop_spec (cfg : Config) (cost : List ℚ → ℚ) (dfuel afuel : ℕ)
    (hasCb : Bool) (term : Option (DEState → Bool)) :
    ∀ (n : ℕ) (draws : ℕ → ℕ → SlotDraws) (s s' : DEState) (used : ℕ)
      (reason : StopReason) (tr : List Event),
      optimizeLoop cfg cost dfuel afuel hasCb term n draws s = some (s', used, reason, tr) →
      used ≤ n ∧
      genIter cfg cost dfuel afuel used draws s = some s' ∧
      (∃ sts, genStates cfg cost dfuel afuel used draws s = some sts ∧
        tr = (sts.map (genEvents hasCb term)).flatten) ∧
      (reason = StopReason.budgetExhausted → used = n ∧
        ∀ p, term = some p → ∀ j sj, 1 ≤ j → j ≤ used →
          genIter cfg cost dfuel afuel j draws s = some sj → p sj = false) ∧
      (reason = StopReason.earlyTermination → 1 ≤ used ∧
        ∃ p, term = some p ∧ p s' = true ∧
          ∀ j sj, 1 ≤ j → j < used →
            genIter cfg cost dfuel afuel j draws s = some sj → p sj = false) := by
  intro n
  induction n with
  | zero =>
    intro draws s s' used reason tr h
    simp only [optimizeLoop, Option.some.injEq, Prod.mk.injEq] at h
    obtain ⟨rfl, rfl, rfl, rfl⟩ := h
    refine ⟨le_refl 0, rfl, ⟨[], rfl, rfl⟩, fun _ => ⟨rfl, ?_⟩, fun hearly => ?_⟩
    · intro p hp j sj h1 h2 _
      omega
    · exact StopReason.noConfusion hearly
  | succ n ih =>
    intro draws s s' used reason tr h
    cases hstep : selectionAndCorssing cfg cost (draws 0) dfuel afuel s with
    | none =>
      simp only [optimizeLoop, hstep] at h
      exact Option.noConfusion h
    | some s₁ =>
      have hps₁false : ∀ p : DEState → Bool, ¬ p s₁ = true → p s₁ = false := by
        intro p hp
        cases hq : p s₁
        · rfl
        · exact absurd hq hp
      cases term with
      | some p =>
        simp only [optimizeLoop, hstep] at h
        by_cases hp : p s₁ = true
        · rw [if_pos hp] at h
          simp only [Option.some.injEq, Prod.mk.injEq] at h
          obtain ⟨rfl, rfl, rfl, rfl⟩ := h
          refine ⟨by omega, ?_, ?_, fun hbud => StopReason.noConfusion hbud, fun _ => ?_⟩
          · simp [genIter, hstep]
          · refine ⟨[s₁], ?_, ?_⟩
            · simp [genStates, hstep]
            · simp
          · refine ⟨le_refl 1, p, rfl, hp, ?_⟩
            intro j sj h1 h2 _
            omega
        · rw [if_neg hp] at h
          cases hrec : optimizeLoop cfg cost dfuel afuel hasCb (some p) n
              (fun k => draws (k + 1)) s₁ with
          | none =>
            rw [hrec] at h
            exact Option.noConfusion h
          | some out =>
            obtain ⟨s₂, used₂, reason₂, tr₂⟩ := out
            rw [hrec] at h
            simp only [Option.map_some', Option.some.injEq, Prod.mk.injEq] at h
            obtain ⟨rfl, rfl, rfl, rfl⟩ := h
            obtain ⟨hle, hgi, ⟨sts, hsts, htr⟩, hbud, hearly⟩ :=
              ih (fun k => draws (k + 1)) s₁ s₂ used₂ reason₂ tr₂ hrec
            refine ⟨by omega, ?_, ?_, ?_, ?_⟩
            · simp only [genIter, hstep]
              exact hgi
            · refine ⟨s₁ :: sts, ?_, ?_⟩
              · simp [genStates, hstep, hsts]
              · simp [htr]
            · intro hbud2
              obtain ⟨rfl, hforall⟩ := hbud hbud2
              refine ⟨rfl, ?_⟩
              intro q hq j sj h1 h2 hgj
              have hqp : q = p := by
                injection hq with hq2
                exact hq2.symm
              subst hqp
              cases j with
              | zero => omega
              | succ j' =>
                simp only [genIter, hstep] at hgj
                by_cases hj0 : j' = 0
                · subst hj0
                  simp only [genIter, Option.some.injEq] at hgj
                  rw [← hgj]
                  exact hps₁false q hp
                · exact hforall q rfl j' sj (by omega) (by omega) hgj
            · intro hearly2
              obtain ⟨h1u, q, hq, hqs, hfirst⟩ := hearly hearly2
              have hqp : q = p := by
                injection hq with hq2
                exact hq2.symm
              subst hqp
              refine ⟨by omega, q, rfl, hqs, ?_⟩
              intro j sj hj1 hjlt hgj
              cases j with
              | zero => omega
              | succ j' =>
                simp only [genIter, hstep] at hgj
                by_cases hj0 : j' = 0
                · subst hj0
                  simp only [genIter, Option.some.injEq] at hgj
                  rw [← hgj]
                  exact hps₁false q hp
                · exact hfirst j' sj (by omega) (by omega) hgj
      | none =>
        simp only [optimizeLoop, hstep] at h
        cases hrec : optimizeLoop cfg cost dfuel afuel hasCb none n
            (fun k => draws (k + 1)) s₁ with
        | none =>
          rw [hrec] at h
          exact Option.noConfusion h
        | some out =>
          obtain ⟨s₂, used₂, reason₂, tr₂⟩ := out
          rw [hrec] at h
          simp only [Option.map_some', Option.some.injEq, Prod.mk.injEq] at h
          obtain ⟨rfl, rfl, rfl, rfl⟩ := h
          obtain ⟨hle, hgi, ⟨sts, hsts, htr⟩, hbud, hearly⟩ :=
            ih (fun k => draws (k + 1)) s₁ s₂ used₂ reason₂ tr₂ hrec
          refine ⟨by omega, ?_, ?_, ?_, ?_⟩
          · simp only [genIter, hstep]
            exact hgi
          · refine ⟨s₁ :: sts, ?_, ?_⟩
            · simp [genStates, hstep, hsts]
            · simp [htr]
          · intro hbud2
            obtain ⟨rfl, -⟩ := hbud hbud2
            exact ⟨rfl, fun q hq => Option.noConfusion hq⟩
          · intro hearly2
            obtain ⟨-, q, hq, -⟩ := hearly hearly2
            exact Option.noConfusion hq

/-- C9: `Optimize` runs `InitPopulation` once and then the generation loop; any
completed run performs `used ≤ iterations` generation steps whose `used`-step
trajectory ends at the returned state; its event trace is, generation by
generation, the step followed by the callback (when configured) followed by the
termination check (when configured); it stops early exactly after the first
generation whose predicate evaluates true (every earlier generation's predicate
was false), and otherwise exhausts the budget with `used = iterations` (the
predicate, when configured, was false after every generation). -/
theorem optimizeDriverSpec (cfg : Config) (cost : List ℚ → ℚ) (draws : RunDraws)
    (dfuel afuel : ℕ) (hasCb : Bool) (term : Option (DEState → Bool)) (iterations : ℕ)
    (s' : DEState) (used : ℕ) (reason : StopReason) (tr : List Event)
    (h : optimize cfg cost draws dfuel afuel hasCb term iterations =
      some (s', used, reason, tr)) :
    optimize cfg cost draws dfuel afuel hasCb term iterations =
      optimizeLoop cfg cost dfuel afuel hasCb term iterations draws.gen
        (initPopulation cfg cost draws.initDraws (constructState cfg)) ∧
    used ≤ iterations ∧
    genIter cfg cost dfuel afuel used draws.gen
      (initPopulation cfg cost draws.initDraws (constructState cfg)) = some s' ∧
    (∃ sts, genStates cfg cost dfuel afuel used draws.gen
        (initPopulation cfg cost draws.initDraws (constructState cfg)) = some sts ∧
      tr = (sts.map (genEvents hasCb term)).flatten) ∧
    (reason = StopReason.budgetExhausted → used = iterations ∧
      ∀ p, term = some p → ∀ j sj, 1 ≤ j → j ≤ used →
        genIter cfg cost dfuel afuel j draws.gen
          (initPopulation cfg cost draws.initDraws (constructState cfg)) = some sj →
        p sj = false) ∧
    (reason = StopReason.earlyTermination → 1 ≤ used ∧
      ∃ p, term = some p ∧ p s' = true ∧
        ∀ j sj, 1 ≤ j → j < used →
          genIter cfg cost dfuel afuel j draws.gen
            (initPopulation cfg cost draws.initDraws (constructState cfg)) = some sj →
          p sj = false) := by
  have key := optimizeLoop_spec cfg cost dfuel afuel hasCb term iterations draws.gen
    (initPopulation cfg cost draws.initDraws (constructState cfg)) s' used reason tr h
  exact ⟨rfl, key.1, key.2.1, key.2.2.1, key.2.2.2.1, key.2.2.2.2⟩

/-- Witness for C9 on the concrete one-iteration run. -/
theorem optimizeDriverSpecWitness :
    optimize cfgW costW rdW 1 1 false none 1 =
      some (sOpt1, 1, StopReason.budgetExhausted, [Event.genStep]) ∧
    1 ≤ 1 ∧
    genIter cfgW costW 1 1 1 rdW.gen
      (initPopulation cfgW costW rdW.initDraws (constructState cfgW)) = some sOpt1 := by
  have h : optimize cfgW costW rdW 1 1 false none 1 =
      some (sOpt1, 1, StopReason.budgetExhausted, [Event.genStep]) := by
    norm_num [optimize, optimizeLoop, initPopulation, bestScanAux, genEvents,
      selectionAndCorssing, slotsLoop, processSlot, processSlotAux, findDonors,
      validDonors, trialVector, crossover, mutantVector, checkConstraintsAll,
      Constraints.check, cfgW, costW, rdW, drawsW, sOpt1, m_F, m_CR, List.range_succ,
      not_lt_bot]
  exact ⟨h,
    (optimizeDriverSpec cfgW costW rdW 1 1 false none 1 sOpt1 1
      StopReason.budgetExhausted [Event.genStep] h).2.1,
    (optimizeDriverSpec cfgW costW rdW 1 1 false none 1 sOpt1 1
      StopReason.budgetExhausted [Event.genStep] h).2.2.1⟩

end DE
